import Mathlib

/-
Verification development for the GDPA warp-specialized attention kernel
(src/tritonbench/operators/gdpa/gdpa_blackwell_tlx.py).

The Python/Triton source is shallowly embedded: machine integers become Nat,
tensor elements become Rat, the hardware tanh.approx.f32 instruction and the
imported gelu helper become explicit function parameters, and the barrier
protocol becomes a step relation on counter states.
-/

namespace GdpaTlx

/-- Triton's `tl.cdiv` on non-negative integers: ceiling division. -/
def cdiv (a b : ℕ) : ℕ := (a + b - 1) / b

/-! ### Tile scheduler (gdpa_kernel_tma_ws_blackwell, lines 304-314 and 544)

Embedding of: `n_tile_num = tl.cdiv(N_CTX, BLOCK_M)`,
`total_tiles = n_tile_num * Z * H`,
`tiles_per_sm = total_tiles // num_progs` plus one when
`prog_id < total_tiles % num_progs`; each unit starts at `tile_idx = prog_id`
and advances by `tile_idx += num_progs` once per iteration of the persistent
loop, for `tiles_per_sm` iterations. -/

/-- Total tile count as computed at line 308: `n_tile_num * Z * H`. -/
def total_tiles (N_CTX BLOCK_M Z H : ℕ) : ℕ := cdiv N_CTX BLOCK_M * Z * H

/-- Per-unit iteration count, lines 310-312. -/
def tiles_per_sm (total num_progs prog_id : ℕ) : ℕ :=
  total / num_progs + if prog_id < total % num_progs then 1 else 0

/-- The set of flattened tile ids processed by unit `prog_id`: it starts at
`prog_id` and strides by `num_progs` (line 544), `tiles_per_sm` times. -/
def assignedTiles (total num_progs prog_id : ℕ) : Finset ℕ :=
  (Finset.range (tiles_per_sm total num_progs prog_id)).image
    (fun j => prog_id + j * num_progs)

theorem mem_assignedTiles {total num_progs prog_id : ℕ}
    (hnp : 0 < num_progs) (hu : prog_id < num_progs) (t : ℕ) :
    t ∈ assignedTiles total num_progs prog_id ↔
      t % num_progs = prog_id ∧ t < total := by
  unfold assignedTiles tiles_per_sm
  simp only [Finset.mem_image, Finset.mem_range]
  set q := total / num_progs with hq
  set r := total % num_progs with hr
  have hrlt : r < num_progs := Nat.mod_lt _ hnp
  have htot : q * num_progs + r = total := by
    rw [hq, hr, Nat.mul_comm]; exact Nat.div_add_mod total num_progs
  constructor
  · rintro ⟨j, hj, rfl⟩
    refine ⟨by simp [Nat.add_mul_mod_self_right, Nat.mod_eq_of_lt hu], ?_⟩
    by_cases hpr : prog_id < r
    · have hjq : j ≤ q := by simp only [hpr, if_true] at hj; omega
      have h1 : j * num_progs ≤ q * num_progs :=
        Nat.mul_le_mul_right _ hjq
      generalize j * num_progs = A at *
      generalize q * num_progs = B at *
      omega
    · have hjq : j + 1 ≤ q := by simp only [hpr, if_false] at hj; omega
      have h1 : (j + 1) * num_progs ≤ q * num_progs :=
        Nat.mul_le_mul_right _ hjq
      have h2 : (j + 1) * num_progs = j * num_progs + num_progs := by ring
      rw [h2] at h1
      generalize j * num_progs = A at *
      generalize q * num_progs = B at *
      omega
  · rintro ⟨hmod, hlt⟩
    have hdm : t / num_progs * num_progs + prog_id = t := by
      conv_rhs => rw [← Nat.div_add_mod t num_progs]
      rw [hmod, Nat.mul_comm]
    refine ⟨t / num_progs, ?_, by omega⟩
    by_cases hpr : prog_id < r
    · simp only [hpr, if_true]
      have h3 : (q + 1) * num_progs = q * num_progs + num_progs := by ring
      have h4 : t / num_progs * num_progs < (q + 1) * num_progs := by
        rw [h3]
        generalize t / num_progs * num_progs = A at *
        generalize q * num_progs = B at *
        omega
      have := lt_of_mul_lt_mul_right h4 (Nat.zero_le num_progs)
      omega
    · simp only [hpr, if_false]
      by_contra hcon
      have hge : q ≤ t / num_progs := by omega
      have h5 : q * num_progs ≤ t / num_progs * num_progs :=
        Nat.mul_le_mul_right _ hge
      generalize t / num_progs * num_progs = A at *
      generalize q * num_progs = B at *
      omega

/-- Claim C2: over the persistent grid-stride scheduler with
`total = ceil(N_CTX / BLOCK_M) * Z * H` tiles and `num_progs` units, unit `u`
processes exactly the tiles `{u + j*num_progs : j < tiles_per_sm u}` where
`tiles_per_sm u = total / num_progs` plus one for `u < total % num_progs`;
those per-unit sets are exactly the residue classes cut at `total`, pairwise
disjoint, and their union is `{0, ..., total - 1}`. -/
theorem scheduler_partitions_tiles (N_CTX BLOCK_M Z H num_progs : ℕ)
    (hnp : 0 < num_progs) :
    (∀ u < num_progs, ∀ t, t ∈ assignedTiles (total_tiles N_CTX BLOCK_M Z H) num_progs u ↔
        (t % num_progs = u ∧ t < total_tiles N_CTX BLOCK_M Z H)) ∧
    (∀ u < num_progs, ∀ v < num_progs, u ≠ v →
      Disjoint (assignedTiles (total_tiles N_CTX BLOCK_M Z H) num_progs u)
        (assignedTiles (total_tiles N_CTX BLOCK_M Z H) num_progs v)) ∧
    (Finset.range num_progs).biUnion
        (assignedTiles (total_tiles N_CTX BLOCK_M Z H) num_progs) =
      Finset.range (total_tiles N_CTX BLOCK_M Z H) := by
  set T := total_tiles N_CTX BLOCK_M Z H
  refine ⟨fun u hu t => mem_assignedTiles hnp hu t, ?_, ?_⟩
  · intro u hu v hv huv
    rw [Finset.disjoint_left]
    intro t ht ht'
    rw [mem_assignedTiles hnp hu t] at ht
    rw [mem_assignedTiles hnp hv t] at ht'
    exact huv (ht.1 ▸ ht'.1.symm ▸ rfl)
  · ext t
    simp only [Finset.mem_biUnion, Finset.mem_range]
    constructor
    · rintro ⟨u, hu, ht⟩
      exact ((mem_assignedTiles hnp hu t).mp ht).2
    · intro ht
      exact ⟨t % num_progs, Nat.mod_lt _ hnp,
        (mem_assignedTiles hnp (Nat.mod_lt _ hnp) t).mpr ⟨rfl, ht⟩⟩

/-- Claim C2 witness at a concrete instance. -/
theorem scheduler_partitions_tiles_witness :
    (0 : ℕ) < 3 ∧
    ((∀ u < 3, ∀ t, t ∈ assignedTiles (total_tiles 300 256 2 2) 3 u ↔
        (t % 3 = u ∧ t < total_tiles 300 256 2 2)) ∧
    (∀ u < 3, ∀ v < 3, u ≠ v →
      Disjoint (assignedTiles (total_tiles 300 256 2 2) 3 u)
        (assignedTiles (total_tiles 300 256 2 2) 3 v)) ∧
    (Finset.range 3).biUnion (assignedTiles (total_tiles 300 256 2 2) 3) =
      Finset.range (total_tiles 300 256 2 2)) :=
  ⟨by decide, scheduler_partitions_tiles 300 256 2 2 3 (by decide)⟩

/-! ### Buffer index / phase arithmetic (_get_bufidx_phase, lines 108-112) -/

/-- Embedding of `_get_bufidx_phase`:
`bufIdx = accum_cnt % NUM_BUFFERS`, `phase = (accum_cnt // NUM_BUFFERS) & 1`. -/
def _get_bufidx_phase (accum_cnt NUM_BUFFERS : ℕ) : ℕ × ℕ :=
  (accum_cnt % NUM_BUFFERS, (accum_cnt / NUM_BUFFERS) &&& 1)

/-- Claim C3: for every counter value and every buffer count `N ≥ 1`,
`_get_bufidx_phase` returns exactly `(count mod N, (count div N) mod 2)`:
the buffer index cycles through `0..N-1` and the phase bit toggles once
every `N` increments. -/
theorem get_bufidx_phase_spec (accum_cnt NUM_BUFFERS : ℕ)
    (hN : 1 ≤ NUM_BUFFERS) :
    _get_bufidx_phase accum_cnt NUM_BUFFERS =
      (accum_cnt % NUM_BUFFERS, (accum_cnt / NUM_BUFFERS) % 2) ∧
    accum_cnt % NUM_BUFFERS < NUM_BUFFERS ∧
    (_get_bufidx_phase (accum_cnt + NUM_BUFFERS) NUM_BUFFERS).2 =
      1 - (_get_bufidx_phase accum_cnt NUM_BUFFERS).2 := by
  unfold _get_bufidx_phase
  refine ⟨by rw [Nat.and_one_is_mod], Nat.mod_lt _ hN, ?_⟩
  simp only [Nat.and_one_is_mod, Nat.add_div_right _ hN]
  omega

/-- Claim C3 witness at a concrete input. -/
theorem get_bufidx_phase_spec_witness :
    1 ≤ 3 ∧
    (_get_bufidx_phase 7 3 = (7 % 3, (7 / 3) % 2) ∧ 7 % 3 < 3 ∧
      (_get_bufidx_phase (7 + 3) 3).2 = 1 - (_get_bufidx_phase 7 3).2) :=
  ⟨by decide, get_bufidx_phase_spec 7 3 (by decide)⟩

/-! ### Activation computation

The forward kernel's two activation partitions (lines 451-482 and 590-629)
compute, per element of the raw score tile `qk`:
`square = qk * qk; inner = c1 * square + c0; inner = inner * qk;
p = qk * tanh_approx(inner) + qk` and store `p` back into the tmem slot
reused from `qk` — with no reference to the compile-time selector
`activation_enum_int` anywhere in the forward kernel body.

The backward helper `_gdpa_bwd_tlx_compute_activation` (lines 1621-1632)
does branch on the selector: 0 keeps the raw score (identity), 1 applies
`gelu` (imported from an external module, embedded here as a function
parameter), 2 applies `0.5 * x * (1 + tanh(0.7978845608 * x *
(1 + 0.044715 * x * x)))`, any other value keeps the raw score.

The hardware instruction `tanh.approx.f32` is embedded as an explicit
function parameter `tanhF`; reduced-precision casts are the identity. -/

/-- Constant `c1 = 0.0356774081` from lines 234 and 451. -/
def fastGeluC1 : ℚ := 0.0356774081

/-- Constant `c0 = 0.7978845608` from lines 235 and 452. -/
def fastGeluC0 : ℚ := 0.7978845608

/-- Per-element value the forward activation partitions store back into the
reused score buffer (lines 451-482): the selector is a parameter of the
kernel but the body never reads it. -/
def fwdActivationStore (tanhF : ℚ → ℚ) (activation_enum_int : ℕ) (x : ℚ) : ℚ :=
  let square := x * x
  let inner := fastGeluC1 * square + fastGeluC0
  let inner := inner * x
  x * tanhF inner + x

/-- Per-element `ppT` computed by the backward activation helper
(lines 1621-1632), which does select on `activation_enum_int`. -/
def bwdSelectedActivation (geluF tanhF : ℚ → ℚ) (activation_enum_int : ℕ)
    (pT : ℚ) : ℚ :=
  if activation_enum_int = 0 then pT
  else if activation_enum_int = 1 then geluF pT
  else if activation_enum_int = 2 then
    0.5 * pT * (1 + tanhF (0.7978845608 * pT * (1 + 0.044715 * pT * pT)))
  else pT

/-- Rational stand-in for the hardware `tanh.approx.f32` instruction:
the Pade approximant `x * (27 + x^2) / (27 + 9 * x^2)`, which like any
faithful tanh approximation is strictly positive at positive arguments. -/
def tanhApproxModel (x : ℚ) : ℚ := x * (27 + x ^ 2) / (27 + 9 * x ^ 2)

/-- Claim C4 counterexample: with the selector set to 0 — which the backward
helper in this same file interprets as the identity activation (lines
1621-1622) — the claim says the stored value at raw score 1 is
`identity 1 = 1`; the forward activation partitions nevertheless store
`fast_gelu(1) = tanh(c1 + c0) + 1 ≠ 1`, because the forward kernel never
reads the selector. -/
theorem fwd_activation_ignores_selector_counterexample :
    bwdSelectedActivation id tanhApproxModel 0 1 = 1 ∧
    fwdActivationStore tanhApproxModel 0 1 ≠ 1 := by
  constructor
  · rfl
  · unfold fwdActivationStore tanhApproxModel fastGeluC0 fastGeluC1
    norm_num

/-- Claim C4 as amended: for every raw score `x` and every tanh
implementation, the value the forward activation partitions store is
`x * tanh(c1*x^3 + c0*x) + x` regardless of the compile-time activation
selector (the forward kernel body never reads `activation_enum_int`); the
selector-dependent identity / exact-GELU / tanh-GELU choice exists only in
the backward activation helper. -/
theorem fwd_activation_stores_fast_gelu (tanhF geluF : ℚ → ℚ)
    (sel sel' : ℕ) (x : ℚ) :
    fwdActivationStore tanhF sel x =
      x * tanhF (fastGeluC1 * (x * x) * x + fastGeluC0 * x) + x ∧
    fwdActivationStore tanhF sel x = fwdActivationStore tanhF sel' x ∧
    bwdSelectedActivation geluF tanhF 0 x = x ∧
    bwdSelectedActivation geluF tanhF 1 x = geluF x ∧
    bwdSelectedActivation geluF tanhF 2 x =
      0.5 * x * (1 + tanhF (0.7978845608 * x * (1 + 0.044715 * x * x))) := by
  refine ⟨?_, rfl, rfl, rfl, rfl⟩
  unfold fwdActivationStore
  ring_nf

/-! ### Forward MMA partition: accumulate flags (lines 694-1059)

Per processed tile the gemm partition issues, into the two output
accumulators `o0` and `o1`:
 * prologue (lines 828-835): `p0.v -> o0` with `use_acc=False`;
 * inner loop over `range(BLOCK_N, klen, BLOCK_N)` (lines 845-998), each
   iteration first `p1.v -> o1` with `use_acc = not first` (line 919),
   then `p0.v -> o0` with `use_acc=True` (line 989), and `first = False`
   at line 993, after the body;
 * epilogue (lines 1041-1050): last `p1.v -> o1` with `use_acc = not first`.
`first` is set to `True` at line 838 inside the outer tile loop, so it is
fresh at the start of each tile. Matmuls targeting the qk buffers are not
output-accumulator events and are omitted. -/

/-- The two output accumulators of the forward MMA partition. -/
inductive AccBuf
  | o0
  | o1
deriving DecidableEq

/-- Accumulator events of the inner loop, threading the `first` flag exactly
as lines 845-998 do: each iteration emits `(o1, not first)` then
`(o0, true)` and continues with `first = false`. -/
def mmaInnerEvents : ℕ → Bool → List (AccBuf × Bool)
  | 0, _ => []
  | n + 1, first =>
      (AccBuf.o1, !first) :: (AccBuf.o0, true) :: mmaInnerEvents n false

/-- Value of the `first` flag after `n` executions of the inner loop body:
cleared exactly when the body ran at least once. -/
def firstAfterInner (n : ℕ) : Bool := n == 0

/-- All `(accumulator, use_acc)` events of one processed tile, in issue
order: prologue `(o0, false)`, the inner loop with `first` initially true,
and the epilogue `(o1, not first)`. -/
def mmaTileEvents (nInner : ℕ) : List (AccBuf × Bool) :=
  (AccBuf.o0, false) ::
    (mmaInnerEvents nInner true ++ [(AccBuf.o1, !firstAfterInner nInner)])

/-- Number of inner-loop iterations `range(BLOCK_N, klen, BLOCK_N)` executes. -/
def innerIterCount (klen BLOCK_N : ℕ) : ℕ := cdiv (klen - BLOCK_N) BLOCK_N

/-- The `use_acc` flags of the events hitting a given accumulator, in order. -/
def accFlags (a : AccBuf) (evs : List (AccBuf × Bool)) : List Bool :=
  (evs.filter (fun e => e.1 = a)).map (fun e => e.2)

theorem accFlags_innerEvents_o0 (n : ℕ) (b : Bool) :
    accFlags AccBuf.o0 (mmaInnerEvents n b) = List.replicate n true := by
  induction n generalizing b with
  | zero => rfl
  | succ n ih =>
      simp only [mmaInnerEvents, accFlags, List.filter, List.map] at *
      simpa [List.replicate] using ih false

theorem accFlags_innerEvents_o1 (n : ℕ) (b : Bool) :
    accFlags AccBuf.o1 (mmaInnerEvents (n + 1) b) =
      (!b) :: List.replicate n true := by
  induction n generalizing b with
  | zero => simp [mmaInnerEvents, accFlags]
  | succ n ih =>
      have step : mmaInnerEvents (n + 2) b =
          (AccBuf.o1, !b) :: (AccBuf.o0, true) :: mmaInnerEvents (n + 1) false :=
        rfl
      rw [step]
      simp only [accFlags, List.filter, List.map] at *
      simpa [List.replicate] using ih false

theorem accFlags_tileEvents_o0 (n : ℕ) :
    accFlags AccBuf.o0 (mmaTileEvents n) = false :: List.replicate n true := by
  have h0 := accFlags_innerEvents_o0 n true
  unfold accFlags at h0 ⊢
  simp only [mmaTileEvents, List.filter_cons, List.filter_append,
    List.map_append]
  simp [h0]

theorem accFlags_tileEvents_o1 (n : ℕ) :
    accFlags AccBuf.o1 (mmaTileEvents n) = false :: List.replicate n true := by
  cases n with
  | zero => rfl
  | succ m =>
      have h1 := accFlags_innerEvents_o1 m true
      unfold accFlags at h1 ⊢
      simp only [mmaTileEvents, List.filter_cons, List.filter_append,
        List.map_append]
      simp [h1, firstAfterInner, ← List.replicate_succ' (n := m)]

/-- Claim C5: within every processed tile of the forward MMA partition, for
each output accumulator (`o0` and `o1`) the first matmul issued into it uses
`accumulate=false` and every subsequent matmul into it uses
`accumulate=true`, with the `first` flag threaded as in the code (true at
tile start, cleared after the first inner-loop body executes). -/
theorem mma_accumulate_flag_pattern (klen BLOCK_N : ℕ) :
    accFlags AccBuf.o0 (mmaTileEvents (innerIterCount klen BLOCK_N)) =
      false :: List.replicate (innerIterCount klen BLOCK_N) true ∧
    accFlags AccBuf.o1 (mmaTileEvents (innerIterCount klen BLOCK_N)) =
      false :: List.replicate (innerIterCount klen BLOCK_N) true ∧
    firstAfterInner 0 = true ∧
    (∀ n, firstAfterInner (n + 1) = false) :=
  ⟨accFlags_tileEvents_o0 _, accFlags_tileEvents_o1 _, rfl, fun n => rfl⟩

/-! ### Backward activation masking (_gdpa_bwd_tlx_compute_activation)

Lines 1612-1619 mask the raw transposed score `pT` before the dV
contribution: if `MASK`, positions with `offs_m < offs_n` (key index greater
than query index) become 0; if `WINDOW_SIZE` is set, positions with
`|offs_m - offs_n| > WINDOW_SIZE` become 0. Lines 1653-1660 apply the same
two masks to the activation-gradient value before `dsT = pT * dpT`
(line 1665). Here `offs_m` is the query row and `offs_n` the key row. -/

/-- Causal mask, lines 1613-1615 and 1654-1656:
`mask = offs_m >= offs_n; pT = tl.where(mask, pT, 0.0)`. -/
def applyCausalMask (MASK : Bool) (offs_m offs_n : ℤ) (x : ℚ) : ℚ :=
  if MASK then (if offs_m ≥ offs_n then x else 0) else x

/-- Sliding-window mask, lines 1617-1619 and 1658-1660:
`window_mask = tl.abs(offs_m - offs_n) <= WINDOW_SIZE`. -/
def applyWindowMask (WINDOW_SIZE : Option ℤ) (offs_m offs_n : ℤ) (x : ℚ) : ℚ :=
  match WINDOW_SIZE with
  | none => x
  | some w => if |offs_m - offs_n| ≤ w then x else 0

/-- Both masks in source order: causal first, then sliding window. -/
def bwdMaskValue (MASK : Bool) (WINDOW_SIZE : Option ℤ) (offs_m offs_n : ℤ)
    (x : ℚ) : ℚ :=
  applyWindowMask WINDOW_SIZE offs_m offs_n
    (applyCausalMask MASK offs_m offs_n x)

/-- Elementwise result of one backward-activation step: the masked score
(stored via `ppT` for the dV contribution), the masked gradient, and
`dsT = grad * dpT`. `geluF`, `geluGradF` embed the imported `gelu`,
`gelu_grad`; `tanhF` embeds `tanh.approx.f32`. -/
structure BwdActOut where
  maskedScore : ℚ
  ppT : ℚ
  maskedGrad : ℚ
  dsT : ℚ

/-- Embedding of the per-element dataflow of lines 1608-1670. -/
def bwdActStep (geluF geluGradF tanhF : ℚ → ℚ) (activation_enum_int : ℕ)
    (MASK : Bool) (WINDOW_SIZE : Option ℤ) (offs_m offs_n : ℤ)
    (score dpT : ℚ) : BwdActOut :=
  let pT := bwdMaskValue MASK WINDOW_SIZE offs_m offs_n score
  let tanh_out := tanhF (0.7978845608 * pT * (1 + 0.044715 * pT * pT))
  let ppT := bwdSelectedActivation geluF tanhF activation_enum_int pT
  let grad0 : ℚ :=
    if activation_enum_int = 0 then 1
    else if activation_enum_int = 1 then geluGradF pT
    else if activation_enum_int = 2 then
      0.5 * pT * (1 - tanh_out * tanh_out)
        * (0.7978845608 + 0.1070322243 * pT * pT) + 0.5 * (1 + tanh_out)
    else 1
  let grad := bwdMaskValue MASK WINDOW_SIZE offs_m offs_n grad0
  { maskedScore := pT, ppT := ppT, maskedGrad := grad, dsT := grad * dpT }

theorem applyWindowMask_zero (WINDOW_SIZE : Option ℤ) (offs_m offs_n : ℤ) :
    applyWindowMask WINDOW_SIZE offs_m offs_n 0 = 0 := by
  cases WINDOW_SIZE with
  | none => rfl
  | some w => simp [applyWindowMask]

theorem bwdMaskValue_causal_zero {MASK : Bool} (WINDOW_SIZE : Option ℤ)
    {offs_m offs_n : ℤ} (hM : MASK = true) (hlt : offs_m < offs_n) (x : ℚ) :
    bwdMaskValue MASK WINDOW_SIZE offs_m offs_n x = 0 := by
  unfold bwdMaskValue applyCausalMask
  rw [hM, if_pos rfl, if_neg (by omega), applyWindowMask_zero]

theorem bwdMaskValue_window_zero (MASK : Bool) {WINDOW_SIZE : Option ℤ}
    {offs_m offs_n : ℤ} {w : ℤ} (hW : WINDOW_SIZE = some w)
    (hfar : w < |offs_m - offs_n|) (x : ℚ) :
    bwdMaskValue MASK WINDOW_SIZE offs_m offs_n x = 0 := by
  unfold bwdMaskValue applyWindowMask
  rw [hW]
  simp only [if_neg (not_le.mpr hfar)]

/-- Claim C6: in the backward activation computation, with the causal flag
enabled every position whose key row exceeds its query row is zeroed before
both the dV contribution and the dS computation; with a sliding window every
position with `|query_row - key_row| > WINDOW_SIZE` is likewise zeroed; both
rules compose (either condition suffices to zero the value). -/
theorem bwd_masking_zeroes (geluF geluGradF tanhF : ℚ → ℚ)
    (sel : ℕ) (MASK : Bool) (WINDOW_SIZE : Option ℤ) (offs_m offs_n : ℤ)
    (score dpT : ℚ)
    (h : (MASK = true ∧ offs_m < offs_n) ∨
      (∃ w, WINDOW_SIZE = some w ∧ w < |offs_m - offs_n|)) :
    (bwdActStep geluF geluGradF tanhF sel MASK WINDOW_SIZE offs_m offs_n
        score dpT).maskedScore = 0 ∧
    (bwdActStep geluF geluGradF tanhF sel MASK WINDOW_SIZE offs_m offs_n
        score dpT).maskedGrad = 0 ∧
    (bwdActStep geluF geluGradF tanhF sel MASK WINDOW_SIZE offs_m offs_n
        score dpT).dsT = 0 := by
  have hz : ∀ x : ℚ, bwdMaskValue MASK WINDOW_SIZE offs_m offs_n x = 0 := by
    intro x
    rcases h with ⟨hM, hlt⟩ | ⟨w, hW, hfar⟩
    · exact bwdMaskValue_causal_zero WINDOW_SIZE hM hlt x
    · exact bwdMaskValue_window_zero MASK hW hfar x
  unfold bwdActStep
  refine ⟨hz score, hz _, ?_⟩
  simp only [hz]
  ring

/-- Claim C6 witness: causal masking at query row 3, key row 5 with a
window of size 1 (both masks active and violated). -/
theorem bwd_masking_zeroes_witness :
    ((true = true ∧ (3 : ℤ) < 5) ∨
      (∃ w, (some 1 : Option ℤ) = some w ∧ w < |(3 : ℤ) - 5|)) ∧
    ((bwdActStep id id id 2 true (some 1) 3 5 7 11).maskedScore = 0 ∧
     (bwdActStep id id id 2 true (some 1) 3 5 7 11).maskedGrad = 0 ∧
     (bwdActStep id id id 2 true (some 1) 3 5 7 11).dsT = 0) :=
  ⟨Or.inl ⟨rfl, by decide⟩,
    bwd_masking_zeroes id id id 2 true (some 1) 3 5 7 11
      (Or.inl ⟨rfl, by decide⟩)⟩

/-! ### Barrier protocol backpressure (forward kernel, lines 372-399 and the
wait/arrive pairs throughout the partitions)

Each buffered channel of the forward kernel (Q sub-tiles, K/V slots, QK/P
regions, O accumulators) is a circular array of `N` slots, each guarded by
an empty/release barrier and a full/commit barrier with `arrive_count=1`.
Producer and consumer keep private monotone counters; a counter value `cnt`
addresses slot `cnt % N` at phase `(cnt / N) & 1` (`_get_bufidx_phase`).
A barrier holds a phase bit that flips on every arrive (it starts at 0);
`tlx.barrier_wait(bar, ph)` proceeds exactly when the barrier's current bit
differs from `ph`.

Two conventions occur in the source for the producer's acquire of the
empty/release barrier:
 * Q channel, lines 1115-1116: wait at phase `q_phase ^ 1`, no initial
   arrive on the barrier;
 * K/V channel, lines 1137-1138: wait at phase `k_phase` directly, the
   kernel having pre-armed every release barrier once (lines 381-383).
The consumer waits on the full/commit barrier at its own phase directly
(e.g. line 733), the barrier starting un-armed.

The state of one channel is the pair (p, c) of completed producer slot
acquisitions and completed consumer slot releases; an acquire or release at
counter value `cnt` arrives once on the corresponding barrier of slot
`cnt % N`, so the arrive count of slot `i`'s barrier is the number of
opposite-side counter values `j` below the opposite counter with
`j % N = i` (plus one pre-arm for the K/V-style release barriers). -/

/-- Number of counter values `j < c` with `j % N = i`: how many times slot
`i`'s barrier has been arrived on after `c` increments of a counter. -/
def relCount (N i : ℕ) : ℕ → ℕ
  | 0 => 0
  | c + 1 => relCount N i c + (if c % N = i then 1 else 0)

theorem relCount_mono (N i : ℕ) {c c' : ℕ} (h : c ≤ c') :
    relCount N i c ≤ relCount N i c' := by
  induction h with
  | refl => exact le_refl _
  | step h ih =>
      refine le_trans ih ?_
      simp only [relCount]
      split <;> omega

theorem relCount_closed (N i : ℕ) (hN : 0 < N) (hi : i < N) (c : ℕ) :
    relCount N i c = c / N + if i < c % N then 1 else 0 := by
  induction c with
  | zero => simp [relCount]
  | succ c ih =>
      rw [relCount, ih]
      have h1 : N * (c / N) + c % N = c := Nat.div_add_mod c N
      have hmlt : c % N < N := Nat.mod_lt _ hN
      rcases Nat.lt_or_ge (c % N + 1) N with hlt | hge
      · have hdiv : (c + 1) / N = c / N := by
          conv_lhs => rw [← h1]
          rw [show N * (c / N) + c % N + 1 = c % N + 1 + N * (c / N) by ring,
            Nat.add_mul_div_left _ _ hN, Nat.div_eq_of_lt hlt]
          omega
        have hmod : (c + 1) % N = c % N + 1 := by
          conv_lhs => rw [← h1]
          rw [show N * (c / N) + c % N + 1 = c % N + 1 + N * (c / N) by ring,
            Nat.add_mul_mod_self_left, Nat.mod_eq_of_lt hlt]
        rw [hdiv, hmod]
        split_ifs <;> omega
      · have heq : c % N = N - 1 := by omega
        have h2 : c + 1 = N * (c / N + 1) := by
          rw [Nat.mul_add, Nat.mul_one]
          omega
        have hdiv : (c + 1) / N = c / N + 1 := by
          rw [h2, Nat.mul_div_cancel_left _ hN]
        have hmod : (c + 1) % N = 0 := by
          rw [h2, Nat.mul_mod_right]
        rw [hdiv, hmod]
        split_ifs <;> omega

theorem relCount_exact (N i q : ℕ) (hN : 0 < N) (hi : i < N) :
    relCount N i (q * N + i) = q := by
  rw [relCount_closed N i hN hi]
  have hdiv : (q * N + i) / N = q := by
    rw [show q * N + i = i + N * q by ring, Nat.add_mul_div_left _ _ hN,
      Nat.div_eq_of_lt hi, Nat.zero_add]
  have hmod : (q * N + i) % N = i := by
    rw [show q * N + i = i + q * N by ring, Nat.add_mul_mod_self_right,
      Nat.mod_eq_of_lt hi]
  rw [hdiv, hmod, if_neg (lt_irrefl i), Nat.add_zero]

/-- Arrive count of slot `cnt % N` after the counter itself reached `cnt`. -/
theorem relCount_self (N p : ℕ) (hN : 0 < N) :
    relCount N (p % N) p = p / N := by
  have h := relCount_exact N (p % N) (p / N) hN (Nat.mod_lt _ hN)
  rwa [Nat.mul_comm, Nat.div_add_mod] at h

/-- Producer acquire in the Q-channel convention (lines 1115-1116): wait on
the un-pre-armed release barrier of slot `p % N` at phase
`((p / N) & 1) ^ 1`; the wait proceeds when the barrier's current bit
(arrive count mod 2) differs from the waited phase. -/
def producerWaitSucceedsQ (N p c : ℕ) : Prop :=
  relCount N (p % N) c % 2 ≠ ((p / N) &&& 1) ^^^ 1

/-- Producer acquire in the K/V-channel convention (lines 1137-1138, with
the pre-arms of lines 381-383 adding one arrive to every release barrier):
wait at phase `(p / N) & 1` directly. -/
def producerWaitSucceedsKV (N p c : ℕ) : Prop :=
  (1 + relCount N (p % N) c) % 2 ≠ (p / N) &&& 1

/-- Consumer wait on the full/commit barrier of slot `c % N` at phase
`(c / N) & 1` (e.g. line 733); its arrive count is the number of producer
commits that landed on that slot. -/
def consumerWaitSucceeds (N p c : ℕ) : Prop :=
  relCount N (c % N) p % 2 ≠ (c / N) &&& 1

/-- One channel's protocol: a producer step acquires (and fills) the next
slot when its barrier wait proceeds; a consumer step consumes (and releases)
the next slot when its wait proceeds. -/
inductive ChannelStep (N : ℕ) : ℕ × ℕ → ℕ × ℕ → Prop
  | producer {p c : ℕ} :
      producerWaitSucceedsKV N p c → ChannelStep N (p, c) (p + 1, c)
  | consumer {p c : ℕ} :
      consumerWaitSucceeds N p c → ChannelStep N (p, c) (p, c + 1)

/-- States reachable from the initial state (both counters zero). -/
def ChannelReachable (N : ℕ) (s : ℕ × ℕ) : Prop :=
  Relation.ReflTransGen (ChannelStep N) (0, 0) s

theorem producerWait_conventions_agree (N p c : ℕ) :
    producerWaitSucceedsQ N p c ↔ producerWaitSucceedsKV N p c := by
  unfold producerWaitSucceedsQ producerWaitSucceedsKV
  rw [Nat.and_one_is_mod]
  rcases Nat.mod_two_eq_zero_or_one (p / N) with h | h <;>
    rcases Nat.mod_two_eq_zero_or_one (relCount N (p % N) c) with h' | h' <;>
      simp [h, h'] <;> omega

theorem producer_guard_advances {N p c : ℕ} (hN : 0 < N) (hcp : c ≤ p)
    (hpc : p ≤ c + N) (hg : producerWaitSucceedsKV N p c) : p < c + N := by
  have hiN : p % N < N := Nat.mod_lt _ hN
  have hpqi : p = p / N * N + p % N := by
    rw [Nat.mul_comm]
    exact (Nat.div_add_mod p N).symm
  have hrq : relCount N (p % N) c ≤ p / N :=
    le_trans (relCount_mono N (p % N) hcp) (le_of_eq (relCount_self N p hN))
  have hpar : relCount N (p % N) c % 2 = p / N % 2 := by
    unfold producerWaitSucceedsKV at hg
    rw [Nat.and_one_is_mod] at hg
    omega
  rcases Nat.eq_zero_or_pos (p / N) with hq0 | hq1
  · have hdm := Nat.div_add_mod p N
    rw [hq0, Nat.mul_zero, Nat.zero_add] at hdm
    omega
  · obtain ⟨q', hq'⟩ : ∃ q', p / N = q' + 1 := ⟨p / N - 1, by omega⟩
    have hsplit : p / N * N = q' * N + N := by
      rw [hq']
      ring
    have hlow : q' ≤ relCount N (p % N) c := by
      have hcge : q' * N + p % N ≤ c := by omega
      exact le_trans (le_of_eq (relCount_exact N (p % N) q' hN hiN).symm)
        (relCount_mono N (p % N) hcge)
    have hr : relCount N (p % N) c = q' + 1 := by omega
    have hclt : q' * N + p % N < c := by
      by_contra hcon
      have hle := relCount_mono N (p % N)
        (Nat.le_of_not_lt hcon : c ≤ q' * N + p % N)
      rw [relCount_exact N (p % N) q' hN hiN] at hle
      omega
    omega

theorem consumer_guard_advances {N p c : ℕ} (hN : 0 < N) (hcp : c ≤ p)
    (hpc : p ≤ c + N) (hg : consumerWaitSucceeds N p c) : c < p := by
  have hiN : c % N < N := Nat.mod_lt _ hN
  have hcqi : c = c / N * N + c % N := by
    rw [Nat.mul_comm]
    exact (Nat.div_add_mod c N).symm
  have hlow : c / N ≤ relCount N (c % N) p :=
    le_trans (le_of_eq (relCount_self N c hN).symm) (relCount_mono N (c % N) hcp)
  have hhigh : relCount N (c % N) p ≤ c / N + 1 := by
    have hle : p ≤ (c / N + 1) * N + c % N := by
      have hx : (c / N + 1) * N = c / N * N + N := by ring
      omega
    exact le_trans (relCount_mono N (c % N) hle)
      (le_of_eq (relCount_exact N (c % N) (c / N + 1) hN hiN))
  have hpar : relCount N (c % N) p % 2 ≠ c / N % 2 := by
    unfold consumerWaitSucceeds at hg
    rw [Nat.and_one_is_mod] at hg
    exact hg
  have hr : relCount N (c % N) p = c / N + 1 := by omega
  by_contra hcon
  have hle := relCount_mono N (c % N) (Nat.le_of_not_lt hcon : p ≤ c)
  rw [relCount_self N c hN] at hle
  omega

theorem channel_invariant {N : ℕ} (hN : 0 < N) {s : ℕ × ℕ}
    (h : ChannelReachable N s) : s.2 ≤ s.1 ∧ s.1 ≤ s.2 + N := by
  induction h with
  | refl => omega
  | tail hsteps hstep ih =>
      cases hstep with
      | producer hg =>
          have := producer_guard_advances hN ih.1 ih.2 hg
          simp only
          omega
      | consumer hg =>
          have := consumer_guard_advances hN ih.1 ih.2 hg
          simp only
          omega

theorem producer_blocks_at_full {N p c : ℕ} (hN : 0 < N) (hfull : p = c + N) :
    ¬ producerWaitSucceedsKV N p c := by
  subst hfull
  unfold producerWaitSucceedsKV
  rw [Nat.and_one_is_mod, Nat.add_mod_right, Nat.add_div_right _ hN]
  have hr : relCount N (c % N) c = c / N := by
    rw [relCount_closed N (c % N) hN (Nat.mod_lt _ hN)]
    simp
  rw [hr]
  omega

/-- Claim C7: in every reachable state of a buffered channel's barrier
protocol, the producer's count of completed slot acquisitions never trails
the consumer's release count and never exceeds it by more than the channel's
slot count `N`; a producer whose lead is exactly `N` finds the release
barrier of its next slot still at the waited phase and blocks. Both
producer-acquire conventions of the source (Q style and pre-armed K/V
style) denote the same guard. -/
theorem channel_backpressure (N : ℕ) (hN : 0 < N) :
    (∀ p c, ChannelReachable N (p, c) → c ≤ p ∧ p ≤ c + N) ∧
    (∀ p c, p = c + N → ¬ producerWaitSucceedsKV N p c) ∧
    (∀ p c, producerWaitSucceedsQ N p c ↔ producerWaitSucceedsKV N p c) :=
  ⟨fun _ _ h => channel_invariant hN h,
    fun _ _ hfull => producer_blocks_at_full hN hfull,
    fun p c => producerWait_conventions_agree N p c⟩

/-- Claim C7 witness at slot count 3 (the kernel's K/V buffer count). -/
theorem channel_backpressure_witness :
    0 < 3 ∧
    ((∀ p c, ChannelReachable 3 (p, c) → c ≤ p ∧ p ≤ c + 3) ∧
    (∀ p c, p = c + 3 → ¬ producerWaitSucceedsKV 3 p c) ∧
    (∀ p c, producerWaitSucceedsQ 3 p c ↔ producerWaitSucceedsKV 3 p c)) :=
  ⟨by decide, channel_backpressure 3 (by decide)⟩

/-! ### Forward pipeline dataflow (gdpa_forward_tlx and the forward kernel)

Functional model of what one launch computes and stores, tile by tile, with
the barrier protocol assumed to serialize each tile's pipeline (the subject
of the channel model above). Elements are exact rationals; the elementwise
activation (including its reduced-precision casts and the hardware tanh) is
a function parameter `act`.

Faithful features of the source kept by the model:
 * `qlen = min(end_q - begin_q, N_CTX)`, `klen = end_k - begin_k`
   (_compute_qlen, lines 95-105);
 * a tile is processed only when `start_m * BLOCK_M < qlen` (line 424);
   skipped tiles touch nothing, so the output rows of skipped tiles keep
   whatever the freshly allocated `torch.empty` buffer held (line 1396);
 * the inner loop runs `start_n in range(0, klen, BLOCK_N)` (line 427) and
   each K/V tile spans a full `BLOCK_N` rows starting at
   `begin_k + start_n` against descriptors whose row bound is the whole
   packed tensor (lines 324-335) — there is no tail masking, so the last
   chunk reads past `end_k` when `BLOCK_N` does not divide `klen`;
 * Q and Out descriptors are bounded by `end_q` rows (lines 1092-1097 and
   1285-1290), so Q rows at or past `end_q` read as zero and output rows at
   or past `end_q` are not written;
 * per output row the two matmul stages accumulate
   `o += act(q . k_chunk) . v_chunk` across chunks with the first chunk
   overwriting (`use_acc=False`);
 * the head `h` addresses Q/Out columns at `h * HEAD_DIM` and K/V columns
   at `(h // G) * HEAD_DIM` (lines 1070-1075);
 * `BLOCK_D = next_power_of_2(HEAD_DIM)` is modeled at its value for
   power-of-two head dims, `BLOCK_D = HEAD_DIM`. -/

/-- Inputs of one forward launch. Offsets are the per-batch begin/end tables
(int64 host tensors); `Q`, `K`, `V` map (packed row, flat column) to the
element there — as total functions they also model the memory the unclamped
K/V descriptors can reach past a sequence's end. `qRows` is
`query.shape[0]`, the packed row count. -/
structure FwdParams where
  Z : ℕ
  H : ℕ
  G : ℕ
  HEAD_DIM : ℕ
  BLOCK_M : ℕ
  BLOCK_N : ℕ
  N_CTX : ℕ
  qRows : ℕ
  qBegin : ℕ → ℕ
  qEnd : ℕ → ℕ
  kBegin : ℕ → ℕ
  kEnd : ℕ → ℕ
  Q : ℕ → ℕ → ℚ
  K : ℕ → ℕ → ℚ
  V : ℕ → ℕ → ℚ

/-- `qlen` of batch `z`: `min(end_q - begin_q, N_CTX)` (lines 98-99). -/
def qlen (p : FwdParams) (z : ℕ) : ℕ := min (p.qEnd z - p.qBegin z) p.N_CTX

/-- `klen` of batch `z`: `end_k - begin_k` (line 103). -/
def klen (p : FwdParams) (z : ℕ) : ℕ := p.kEnd z - p.kBegin z

/-- `n_tile_num = tl.cdiv(N_CTX, BLOCK_M)` (line 304). -/
def n_tile_num (p : FwdParams) : ℕ := cdiv p.N_CTX p.BLOCK_M

/-- Q read through the on-device descriptor of shape `[end_q, ...]`
(lines 1092-1097): rows at or past `end_q` read as zero. -/
def qRead (p : FwdParams) (z r col : ℕ) : ℚ :=
  if r < p.qEnd z then p.Q r col else 0

/-- Raw score of (global query row `r`, global key row `c`) for head `h`:
the `q . k` dot over the head dimension. -/
def score (p : FwdParams) (z h r c : ℕ) : ℚ :=
  ∑ d ∈ Finset.range p.HEAD_DIM,
    qRead p z r (h * p.HEAD_DIM + d) * p.K c (h / p.G * p.HEAD_DIM + d)

/-- Contribution of inner-loop chunk `cIdx` (keys
`kBegin + cIdx*BLOCK_N + t`, `t < BLOCK_N`) to output element
(row `r`, head-local column `j`): `act(q . k) . v` over the chunk. -/
def chunkVal (p : FwdParams) (act : ℚ → ℚ) (z h r j cIdx : ℕ) : ℚ :=
  ∑ t ∈ Finset.range p.BLOCK_N,
    act (score p z h r (p.kBegin z + cIdx * p.BLOCK_N + t)) *
      p.V (p.kBegin z + cIdx * p.BLOCK_N + t) (h / p.G * p.HEAD_DIM + j)

/-- Final accumulator value for output row `r`, head `h`, head-local column
`j` of a processed tile: the inner loop `range(0, klen, BLOCK_N)` runs
`cdiv klen BLOCK_N` times, the first chunk overwriting and later chunks
accumulating. -/
def kernelRowOut (p : FwdParams) (act : ℚ → ℚ) (z h r j : ℕ) : ℚ :=
  (List.range (cdiv (klen p z) p.BLOCK_N)).foldl
    (fun acc cIdx => acc + chunkVal p act z h r j cIdx) 0

/-- Reference softmax-free activation attention
`O = act(Q . K^T) . V` over exactly the `klen` real keys of batch `z`. -/
def referenceRow (p : FwdParams) (act : ℚ → ℚ) (z h r j : ℕ) : ℚ :=
  ∑ c ∈ Finset.range (klen p z),
    act (∑ d ∈ Finset.range p.HEAD_DIM,
        p.Q r (h * p.HEAD_DIM + d) *
          p.K (p.kBegin z + c) (h / p.G * p.HEAD_DIM + d)) *
      p.V (p.kBegin z + c) (h / p.G * p.HEAD_DIM + j)

/-- Cells written by tile `(z, h, m)`: the tile must be processed
(`m * BLOCK_M < qlen`, line 424), the row lies in the tile's `BLOCK_M` rows
below the output descriptor's `end_q` bound, and the column in head `h`'s
`HEAD_DIM` columns. -/
def tileCovers (p : FwdParams) (z h m r col : ℕ) : Prop :=
  m * p.BLOCK_M < qlen p z ∧
  p.qBegin z + m * p.BLOCK_M ≤ r ∧
  r < p.qBegin z + (m + 1) * p.BLOCK_M ∧
  r < p.qEnd z ∧
  h * p.HEAD_DIM ≤ col ∧
  col < (h + 1) * p.HEAD_DIM

instance tileCoversDec (p : FwdParams) (z h m r col : ℕ) :
    Decidable (tileCovers p z h m r col) := by
  unfold tileCovers
  infer_instance

/-- Effect of one tile on the output state: covered cells get the tile's
computed row value, everything else is untouched. -/
def writeTile (p : FwdParams) (act : ℚ → ℚ) (out : ℕ → ℕ → ℚ)
    (t : ℕ × ℕ × ℕ) : ℕ → ℕ → ℚ :=
  fun r col =>
    if tileCovers p t.1 t.2.1 t.2.2 r col then
      kernelRowOut p act t.1 t.2.1 r (col - t.2.1 * p.HEAD_DIM)
    else out r col

/-- All `(z, h, m)` tiles of one launch (every flattened tile id of the
grid-stride loop decodes to one such triple). -/
def tileList (p : FwdParams) : List (ℕ × ℕ × ℕ) :=
  (List.range p.Z).flatMap fun z =>
    (List.range p.H).flatMap fun h =>
      (List.range (n_tile_num p)).map fun m => (z, h, m)

/-- Output state after one kernel launch, starting from the uninitialized
contents `init` of the freshly `torch.empty`-allocated output (line 1396).
`qk_scale` is received by the kernel (line 275) but its body never reads
it. -/
def gdpaKernelOutput (p : FwdParams) (act : ℚ → ℚ) (qk_scale : ℚ)
    (init : ℕ → ℕ → ℚ) : ℕ → ℕ → ℚ :=
  (tileList p).foldl (writeTile p act) init

/-- Host entry point `gdpa_forward_tlx` (lines 1331-1522): the only
precondition checked before the launch is
`assert query.shape[1] % key.shape[1] == 0` (line 1411); a `None`
`qk_scale` defaults to `1.0` (lines 1358-1359). `kvheads` is
`key.shape[1]`. The ragged offsets are never validated. -/
def gdpa_forward_tlx (p : FwdParams) (act : ℚ → ℚ) (kvheads : ℕ)
    (qk_scale : Option ℚ) (init : ℕ → ℕ → ℚ) :
    Except String (ℕ → ℕ → ℚ) :=
  if p.H % kvheads = 0 then
    Except.ok (gdpaKernelOutput p act (qk_scale.getD 1) init)
  else
    Except.error "assert query.shape[1] % key.shape[1] == 0"

/-- The ragged-offsets well-formedness equation of the spec:
the per-batch lengths sum to the packed tensor's row count. -/
def offsetsSumEq (p : FwdParams) : Prop :=
  (∑ z ∈ Finset.range p.Z, (p.qEnd z - p.qBegin z)) = p.qRows

instance offsetsSumEqDec (p : FwdParams) : Decidable (offsetsSumEq p) := by
  unfold offsetsSumEq
  infer_instance

/-- The forward activation actually applied by the kernel (the
selector-independent fast tanh GELU), with the Pade tanh model standing in
for `tanh.approx.f32`. -/
def kernelAct : ℚ → ℚ := fwdActivationStore tanhApproxModel 0

theorem mem_tileList (p : FwdParams) (z h m : ℕ) :
    (z, h, m) ∈ tileList p ↔ z < p.Z ∧ h < p.H ∧ m < n_tile_num p := by
  simp only [tileList, List.mem_flatMap, List.mem_map, List.mem_range,
    Prod.mk.injEq]
  constructor
  · rintro ⟨z', hz', h', hh', m', hm', rfl, rfl, rfl⟩
    exact ⟨hz', hh', hm'⟩
  · rintro ⟨hz, hh, hm⟩
    exact ⟨z, hz, h, hh, m, hm, rfl, rfl, rfl⟩

theorem foldWrites_not_covered (p : FwdParams) (act : ℚ → ℚ)
    (l : List (ℕ × ℕ × ℕ)) (g : ℕ → ℕ → ℚ) (r col : ℕ)
    (h : ∀ t ∈ l, ¬ tileCovers p t.1 t.2.1 t.2.2 r col) :
    l.foldl (writeTile p act) g r col = g r col := by
  revert h
  induction l generalizing g with
  | nil =>
      intro h
      rfl
  | cons t l ih =>
      intro h
      rw [List.foldl_cons,
        ih _ (fun t' ht' => h t' (List.mem_cons_of_mem _ ht'))]
      unfold writeTile
      rw [if_neg (h t (List.mem_cons_self _ _))]

theorem foldWrites_covered (p : FwdParams) (act : ℚ → ℚ)
    (l : List (ℕ × ℕ × ℕ)) (g : ℕ → ℕ → ℚ) (r col : ℕ) (v : ℚ)
    (hval : ∀ t ∈ l, tileCovers p t.1 t.2.1 t.2.2 r col →
      kernelRowOut p act t.1 t.2.1 r (col - t.2.1 * p.HEAD_DIM) = v)
    (hex : ∃ t ∈ l, tileCovers p t.1 t.2.1 t.2.2 r col) :
    l.foldl (writeTile p act) g r col = v := by
  revert hval hex
  induction l generalizing g with
  | nil =>
      rintro _ ⟨t, ht, _⟩
      cases ht
  | cons t l ih =>
      intro hval hex
      rw [List.foldl_cons]
      by_cases hc : ∃ t' ∈ l, tileCovers p t'.1 t'.2.1 t'.2.2 r col
      · exact ih _ (fun t' ht' => hval t' (List.mem_cons_of_mem _ ht')) hc
      · rw [foldWrites_not_covered p act l _ r col
          (fun t' ht' hcov => hc ⟨t', ht', hcov⟩)]
        unfold writeTile
        rcases hex with ⟨t0, ht0, hcov0⟩
        rcases List.mem_cons.mp ht0 with rfl | hmem
        · rw [if_pos hcov0]
          exact hval _ (List.mem_cons_self _ _) hcov0
        · exact absurd ⟨t0, hmem, hcov0⟩ hc

theorem head_of_col {h h' D j : ℕ} (hD : 0 < D) (hj : j < D)
    (h1 : h' * D ≤ h * D + j) (h2 : h * D + j < (h' + 1) * D) : h' = h := by
  have e1 : (h * D + j) / D = h := by
    rw [show h * D + j = j + D * h by ring, Nat.add_mul_div_left _ _ hD,
      Nat.div_eq_of_lt hj, Nat.zero_add]
  have e2 : (h * D + j) / D = h' := Nat.div_eq_of_lt_le h1 h2
  omega

theorem batch_of_row (p : FwdParams) {z z' r : ℕ} (hz : z < p.Z)
    (hz' : z' < p.Z)
    (hsep : ∀ z1 z2, z1 < z2 → z2 < p.Z → p.qEnd z1 ≤ p.qBegin z2)
    (h1 : p.qBegin z ≤ r) (h2 : r < p.qEnd z)
    (h1' : p.qBegin z' ≤ r) (h2' : r < p.qEnd z') : z' = z := by
  rcases lt_trichotomy z' z with h | h | h
  · have := hsep z' z h hz
    omega
  · exact h
  · have := hsep z z' h hz'
    omega

theorem lt_cdiv_of_lt_of_pos {B n x : ℕ} (hB : 0 < B) (hx : x < n) :
    x / B < cdiv n B := by
  have h1 : n ≤ cdiv n B * B := by
    unfold cdiv
    have h2 := Nat.div_add_mod (n + B - 1) B
    have h3 : (n + B - 1) % B < B := Nat.mod_lt _ hB
    have h4 : (n + B - 1) / B * B = B * ((n + B - 1) / B) := Nat.mul_comm _ _
    generalize (n + B - 1) / B * B = X at *
    generalize B * ((n + B - 1) / B) = Y at *
    omega
  by_contra hcon
  have h5 : cdiv n B * B ≤ x / B * B :=
    Nat.mul_le_mul_right _ (Nat.le_of_not_lt hcon)
  have h6 : x / B * B ≤ x := Nat.div_mul_le_self x B
  omega

theorem cover_of_inner (p : FwdParams) {z i j : ℕ} (h : ℕ)
    (hBM : 0 < p.BLOCK_M) (hbe : p.qBegin z ≤ p.qEnd z)
    (hi : i < qlen p z) (hj : j < p.HEAD_DIM) :
    tileCovers p z h (i / p.BLOCK_M) (p.qBegin z + i)
      (h * p.HEAD_DIM + j) := by
  have hdm := Nat.div_add_mod i p.BLOCK_M
  have hml : i % p.BLOCK_M < p.BLOCK_M := Nat.mod_lt _ hBM
  have hmul : i / p.BLOCK_M * p.BLOCK_M ≤ i := Nat.div_mul_le_self i p.BLOCK_M
  have hqe : i < p.qEnd z - p.qBegin z := lt_of_lt_of_le hi (min_le_left _ _)
  refine ⟨lt_of_le_of_lt hmul hi, by omega, ?_, by omega, by omega, ?_⟩
  · have hexp : (i / p.BLOCK_M + 1) * p.BLOCK_M =
        i / p.BLOCK_M * p.BLOCK_M + p.BLOCK_M := by ring
    have hcm : i / p.BLOCK_M * p.BLOCK_M = p.BLOCK_M * (i / p.BLOCK_M) :=
      Nat.mul_comm _ _
    generalize i / p.BLOCK_M * p.BLOCK_M = X at *
    generalize (i / p.BLOCK_M + 1) * p.BLOCK_M = Y at *
    generalize p.BLOCK_M * (i / p.BLOCK_M) = W at *
    omega
  · have hexp : (h + 1) * p.HEAD_DIM = h * p.HEAD_DIM + p.HEAD_DIM := by ring
    omega

/-- Output value of one launch at a cell inside the real (unpadded) query
rows of batch `z` and inside head `h`'s columns: the value the covering
tile's pipeline computed, independent of the initial buffer contents. -/
theorem kernelOutput_at_inner_cell (p : FwdParams) (act : ℚ → ℚ) (s : ℚ)
    (init : ℕ → ℕ → ℚ) {z h i j : ℕ}
    (hZ : z < p.Z) (hH : h < p.H) (hBM : 0 < p.BLOCK_M)
    (hbe : ∀ w, p.qBegin w ≤ p.qEnd w)
    (hsep : ∀ z1 z2, z1 < z2 → z2 < p.Z → p.qEnd z1 ≤ p.qBegin z2)
    (hi : i < qlen p z) (hj : j < p.HEAD_DIM) :
    gdpaKernelOutput p act s init (p.qBegin z + i) (h * p.HEAD_DIM + j) =
      kernelRowOut p act z h (p.qBegin z + i) j := by
  have hD : 0 < p.HEAD_DIM := Nat.pos_of_ne_zero (by omega)
  have hrend : p.qBegin z + i < p.qEnd z := by
    have hqe : i < p.qEnd z - p.qBegin z := lt_of_lt_of_le hi (min_le_left _ _)
    have := hbe z
    omega
  unfold gdpaKernelOutput
  apply foldWrites_covered
  · rintro ⟨z', h', m'⟩ hmem hcov
    obtain ⟨hz', hh', hm'⟩ := (mem_tileList p z' h' m').mp hmem
    obtain ⟨hproc, hlo, hhi2, hend, hclo, hchi⟩ := hcov
    have hzz : z' = z := by
      refine batch_of_row p hZ hz' hsep (Nat.le_add_right _ _) hrend ?_ hend
      exact le_trans (Nat.le_add_right _ _) hlo
    have hhh : h' = h := head_of_col hD hj hclo hchi
    subst hzz
    subst hhh
    rw [Nat.add_sub_cancel_left]
  · refine ⟨(z, h, i / p.BLOCK_M), ?_, cover_of_inner p h hBM (hbe z) hi hj⟩
    refine (mem_tileList p z h _).mpr ⟨hZ, hH, ?_⟩
    exact lt_cdiv_of_lt_of_pos hBM (lt_of_lt_of_le hi (min_le_right _ _))

theorem foldl_add_range (f : ℕ → ℚ) (n : ℕ) :
    (List.range n).foldl (fun a k => a + f k) 0 = ∑ k ∈ Finset.range n, f k := by
  induction n with
  | zero => rfl
  | succ n ih =>
      rw [List.range_succ, List.foldl_append, List.foldl_cons, List.foldl_nil,
        ih, Finset.sum_range_succ]

theorem cdiv_mul_self (m B : ℕ) (hB : 0 < B) : cdiv (m * B) B = m := by
  unfold cdiv
  have hc : m * B = B * m := Nat.mul_comm m B
  have h1 : m * B + B - 1 = (B - 1) + B * m := by omega
  rw [h1, Nat.add_mul_div_left _ _ hB, Nat.div_eq_of_lt (by omega),
    Nat.zero_add]

theorem sum_blocks_eq_sum_range (f : ℕ → ℚ) (m B : ℕ) :
    ∑ cIdx ∈ Finset.range m, ∑ t ∈ Finset.range B, f (cIdx * B + t) =
      ∑ c ∈ Finset.range (m * B), f c := by
  induction m with
  | zero => simp
  | succ m ih =>
      rw [Finset.sum_range_succ, ih]
      have hmul : (m + 1) * B = m * B + B := by ring
      rw [hmul, ← Finset.sum_range_add_sum_Ico f (Nat.le_add_right (m * B) B)]
      congr 1
      rw [Finset.sum_Ico_eq_sum_range]
      have hsub : m * B + B - m * B = B := by omega
      rw [hsub]

/-- The inner-loop accumulation over full `BLOCK_N` chunks equals the
reference sum over exactly the real keys, whenever `BLOCK_N` divides
`klen` (so the last chunk has no overrun past `end_k`). -/
theorem kernelRowOut_eq_reference (p : FwdParams) (act : ℚ → ℚ) {z : ℕ}
    (h r j : ℕ) (hr : r < p.qEnd z) (hBN : 0 < p.BLOCK_N)
    (hdvd : p.BLOCK_N ∣ klen p z) :
    kernelRowOut p act z h r j = referenceRow p act z h r j := by
  obtain ⟨m, hm⟩ := hdvd
  have hm' : klen p z = m * p.BLOCK_N := by rw [hm, Nat.mul_comm]
  unfold kernelRowOut referenceRow
  rw [foldl_add_range, hm', cdiv_mul_self _ _ hBN]
  have hL : (∑ cIdx ∈ Finset.range m, chunkVal p act z h r j cIdx) =
      ∑ c ∈ Finset.range (m * p.BLOCK_N),
        act (score p z h r (p.kBegin z + c)) *
          p.V (p.kBegin z + c) (h / p.G * p.HEAD_DIM + j) := by
    rw [← sum_blocks_eq_sum_range
      (fun c => act (score p z h r (p.kBegin z + c)) *
        p.V (p.kBegin z + c) (h / p.G * p.HEAD_DIM + j)) m p.BLOCK_N]
    refine Finset.sum_congr rfl fun cIdx _ => ?_
    unfold chunkVal
    refine Finset.sum_congr rfl fun t _ => ?_
    rw [Nat.add_assoc]
  rw [hL]
  refine Finset.sum_congr rfl fun c _ => ?_
  have hscore : score p z h r (p.kBegin z + c) =
      ∑ d ∈ Finset.range p.HEAD_DIM,
        p.Q r (h * p.HEAD_DIM + d) *
          p.K (p.kBegin z + c) (h / p.G * p.HEAD_DIM + d) := by
    unfold score qRead
    exact Finset.sum_congr rfl fun d _ => by rw [if_pos hr]
  rw [hscore]

/-- Concrete forward instance for the tolerance counterexample: batch 2,
1 head, head_dim 1, `BLOCK_M = 1`, `BLOCK_N = 2`, query offsets `[0, 1, 2]`,
key/value offsets `[0, 1, 3]` (sequence lengths 1 and 2, the first not a
multiple of `BLOCK_N`). `K` and `V` are zero except at packed row 1 — the
first key row of batch 1, which batch 0's single key tile also spans. -/
def pC1 : FwdParams where
  Z := 2
  H := 1
  G := 1
  HEAD_DIM := 1
  BLOCK_M := 1
  BLOCK_N := 2
  N_CTX := 1
  qRows := 2
  qBegin := fun z => z
  qEnd := fun z => z + 1
  kBegin := fun z => z
  kEnd := fun z => 2 * z + 1
  Q := fun r _ => if r = 0 then 1 else 0
  K := fun r _ => if r = 1 then 1 else 0
  V := fun r _ => if r = 1 then 1 else 0

/-- Claim C1 counterexample: on `pC1` — whose offsets are monotonically
non-decreasing and whose query row 0 lies inside batch 0's real sequence
length — the launch's output at row 0 misses the reference
`O = act(Q.K^T).V` by far more than relative tolerance 1e-2 plus absolute
tolerance 1e-2: the single key chunk of batch 0 spans two packed rows, the
second of which belongs to batch 1, and no tail masking removes its
contribution `act(1) * 1 > 1` (the reference value is 0). -/
theorem forward_reference_tolerance_counterexample :
    pC1.qBegin 0 ≤ pC1.qEnd 0 ∧ pC1.qEnd 0 ≤ pC1.qBegin 1 ∧
    pC1.qBegin 1 ≤ pC1.qEnd 1 ∧
    pC1.kBegin 0 ≤ pC1.kEnd 0 ∧ pC1.kEnd 0 ≤ pC1.kBegin 1 ∧
    pC1.kBegin 1 ≤ pC1.kEnd 1 ∧
    0 < qlen pC1 0 ∧
    ¬ (|gdpaKernelOutput pC1 kernelAct 1 (fun _ _ => 0) (pC1.qBegin 0 + 0)
          (0 * pC1.HEAD_DIM + 0) -
        referenceRow pC1 kernelAct 0 0 (pC1.qBegin 0 + 0) 0| ≤
      1 / 100 + 1 / 100 *
        |referenceRow pC1 kernelAct 0 0 (pC1.qBegin 0 + 0) 0|) := by
  refine ⟨by decide, by decide, by decide, by decide, by decide, by decide,
    by decide, ?_⟩
  have hout : gdpaKernelOutput pC1 kernelAct 1 (fun _ _ => 0)
      (pC1.qBegin 0 + 0) (0 * pC1.HEAD_DIM + 0) =
      kernelRowOut pC1 kernelAct 0 0 0 0 := rfl
  have hrow : kernelRowOut pC1 kernelAct 0 0 0 0 = kernelAct 1 := by
    unfold kernelRowOut chunkVal score qRead klen cdiv
    norm_num [pC1, Finset.sum_range_succ, List.range_succ]
  have href : referenceRow pC1 kernelAct 0 0 (pC1.qBegin 0 + 0) 0 = 0 := by
    unfold referenceRow klen
    norm_num [pC1, Finset.sum_range_succ, kernelAct, fwdActivationStore]
  rw [hout, hrow, href]
  norm_num [kernelAct, fwdActivationStore, tanhApproxModel, fastGeluC0,
    fastGeluC1, abs]

/-- Claim C1 as amended: the launch output matches the reference
softmax-free activation attention exactly (hence within any tolerance) at
every row inside the real sequence length of its batch element, for valid
monotone offsets, PROVIDED `BLOCK_N` divides the batch element's key
length — without that divisibility the last key chunk reads rows past
`end_k` and the counterexample applies. -/
theorem forward_matches_reference (p : FwdParams) (act : ℚ → ℚ) (s : ℚ)
    (init : ℕ → ℕ → ℚ) (z h i j : ℕ)
    (hZ : z < p.Z) (hH : h < p.H) (hBM : 0 < p.BLOCK_M)
    (hBN : 0 < p.BLOCK_N)
    (hbe : ∀ w, p.qBegin w ≤ p.qEnd w)
    (hsep : ∀ z1 z2, z1 < z2 → z2 < p.Z → p.qEnd z1 ≤ p.qBegin z2)
    (hi : i < qlen p z) (hj : j < p.HEAD_DIM)
    (hdvd : p.BLOCK_N ∣ klen p z) :
    gdpaKernelOutput p act s init (p.qBegin z + i) (h * p.HEAD_DIM + j) =
      referenceRow p act z h (p.qBegin z + i) j := by
  rw [kernelOutput_at_inner_cell p act s init hZ hH hBM hbe hsep hi hj]
  refine kernelRowOut_eq_reference p act h _ j ?_ hBN hdvd
  have hqe : i < p.qEnd z - p.qBegin z := lt_of_lt_of_le hi (min_le_left _ _)
  have := hbe z
  omega

/-- Claim C1 amended-theorem witness: batch 1 of `pC1` has key length 2, a
multiple of `BLOCK_N = 2`, and there the kernel output equals the
reference. -/
theorem forward_matches_reference_witness :
    (1 < pC1.Z) ∧ (0 < pC1.H) ∧ (0 < pC1.BLOCK_M) ∧ (0 < pC1.BLOCK_N) ∧
    (∀ w, pC1.qBegin w ≤ pC1.qEnd w) ∧
    (∀ z1 z2, z1 < z2 → z2 < pC1.Z → pC1.qEnd z1 ≤ pC1.qBegin z2) ∧
    (0 < qlen pC1 1) ∧ (0 < pC1.HEAD_DIM) ∧ (pC1.BLOCK_N ∣ klen pC1 1) ∧
    gdpaKernelOutput pC1 kernelAct 1 (fun _ _ => 0)
        (pC1.qBegin 1 + 0) (0 * pC1.HEAD_DIM + 0) =
      referenceRow pC1 kernelAct 1 0 (pC1.qBegin 1 + 0) 0 :=
  ⟨by decide, by decide, by decide, by decide,
    fun w => by show w ≤ w + 1; omega,
    fun z1 z2 h1 _ => by show z1 + 1 ≤ z2; omega,
    by decide, by decide, by decide,
    forward_matches_reference pC1 kernelAct 1 (fun _ _ => 0) 1 0 0 0
      (by decide) (by decide) (by decide) (by decide)
      (fun w => by show w ≤ w + 1; omega)
      (fun z1 z2 h1 _ => by show z1 + 1 ≤ z2; omega)
      (by decide) (by decide) (by decide)⟩

/-- Concrete instance for the idempotence counterexample: one batch element
whose real stored length (2 rows, offsets `[0, 2]`, `qRows = 2` — the
offsets-sum equation holds) exceeds `N_CTX = 1`, so packed row 1 lies
beyond the real (processed) sequence length: every tile that would cover it
is skipped and the row keeps the `torch.empty` buffer's prior contents. -/
def pC9 : FwdParams where
  Z := 1
  H := 1
  G := 1
  HEAD_DIM := 1
  BLOCK_M := 1
  BLOCK_N := 1
  N_CTX := 1
  qRows := 2
  qBegin := fun _ => 0
  qEnd := fun _ => 2
  kBegin := fun _ => 0
  kEnd := fun _ => 1
  Q := fun _ _ => 1
  K := fun _ _ => 1
  V := fun _ _ => 1

/-- Claim C9 counterexample: two launches of the forward pass on identical
inputs and offsets differ at padding row 1 whenever the uninitialized
`torch.empty` output buffer holds different garbage: no kernel tile writes
that row, so its value is not a function of the inputs. -/
theorem forward_not_bit_identical_counterexample :
    offsetsSumEq pC9 ∧
    gdpaKernelOutput pC9 kernelAct 1 (fun _ _ => 0) 1 0 ≠
      gdpaKernelOutput pC9 kernelAct 1 (fun _ _ => 5) 1 0 := by
  constructor
  · decide
  · decide

/-- Claim C9 as amended: at every output cell inside the real (processed)
sequence length of its batch element, the launch output is a function of
the inputs alone — identical across calls regardless of the uninitialized
output buffer contents (and of `qk_scale`); only padding rows, which no
tile writes, can differ between calls. -/
theorem forward_deterministic_on_real_rows (p : FwdParams) (act : ℚ → ℚ)
    (s1 s2 : ℚ) (init1 init2 : ℕ → ℕ → ℚ) (z h i j : ℕ)
    (hZ : z < p.Z) (hH : h < p.H) (hBM : 0 < p.BLOCK_M)
    (hbe : ∀ w, p.qBegin w ≤ p.qEnd w)
    (hsep : ∀ z1 z2, z1 < z2 → z2 < p.Z → p.qEnd z1 ≤ p.qBegin z2)
    (hi : i < qlen p z) (hj : j < p.HEAD_DIM) :
    gdpaKernelOutput p act s1 init1 (p.qBegin z + i) (h * p.HEAD_DIM + j) =
      gdpaKernelOutput p act s2 init2 (p.qBegin z + i) (h * p.HEAD_DIM + j) := by
  rw [kernelOutput_at_inner_cell p act s1 init1 hZ hH hBM hbe hsep hi hj,
    kernelOutput_at_inner_cell p act s2 init2 hZ hH hBM hbe hsep hi hj]

/-- Claim C9 amended-theorem witness: the written cell (0,0) of `pC9`
agrees across two launches with different initial buffer garbage. -/
theorem forward_deterministic_on_real_rows_witness :
    (0 < pC9.Z) ∧ (0 < pC9.H) ∧ (0 < pC9.BLOCK_M) ∧
    (∀ w, pC9.qBegin w ≤ pC9.qEnd w) ∧
    (∀ z1 z2, z1 < z2 → z2 < pC9.Z → pC9.qEnd z1 ≤ pC9.qBegin z2) ∧
    (0 < qlen pC9 0) ∧ (0 < pC9.HEAD_DIM) ∧
    gdpaKernelOutput pC9 kernelAct 1 (fun _ _ => 0)
        (pC9.qBegin 0 + 0) (0 * pC9.HEAD_DIM + 0) =
      gdpaKernelOutput pC9 kernelAct 2 (fun _ _ => 5)
        (pC9.qBegin 0 + 0) (0 * pC9.HEAD_DIM + 0) :=
  ⟨by decide, by decide, by decide, fun w => by show (0 : ℕ) ≤ 2; omega,
    fun z1 z2 h1 h2 => by
      have hZ1 : pC9.Z = 1 := rfl
      omega,
    by decide, by decide,
    forward_deterministic_on_real_rows pC9 kernelAct 1 2 (fun _ _ => 0)
      (fun _ _ => 5) 0 0 0 0 (by decide) (by decide) (by decide)
      (fun w => by show (0 : ℕ) ≤ 2; omega)
      (fun z1 z2 h1 h2 => by
        have hZ1 : pC9.Z = 1 := rfl
        omega)
      (by decide) (by decide)⟩

/-- Concrete instance violating the offsets-sum equation: length 2 offsets
over a packed tensor declared with 5 rows. -/
def pC8 : FwdParams :=
  { pC9 with qRows := 5 }

/-- Claim C8 counterexample: a call whose ragged offsets violate
`sum(end[i]-begin[i]) == total rows` (2 versus 5) raises no error — the
host entry point launches the kernel and returns the output; its only
precondition check is the head-divisibility assert. -/
theorem host_launches_despite_offsets_violation :
    ¬ offsetsSumEq pC8 ∧
    gdpa_forward_tlx pC8 kernelAct 1 none (fun _ _ => 0) =
      Except.ok (gdpaKernelOutput pC8 kernelAct 1 (fun _ _ => 0)) := by
  constructor
  · decide
  · rfl

/-- Claim C8 as amended: the only host-side precondition of
`gdpa_forward_tlx` is `assert query.shape[1] % key.shape[1] == 0`; whenever
that divisibility holds the kernel is launched and no error is raised,
regardless of whether the ragged offsets satisfy the sum equation. -/
theorem host_precheck_ignores_offsets (p : FwdParams) (act : ℚ → ℚ)
    (kvheads : ℕ) (qk_scale : Option ℚ) (init : ℕ → ℕ → ℚ)
    (hdiv : p.H % kvheads = 0) :
    gdpa_forward_tlx p act kvheads qk_scale init =
      Except.ok (gdpaKernelOutput p act (qk_scale.getD 1) init) := by
  unfold gdpa_forward_tlx
  rw [if_pos hdiv]

/-- Claim C8 amended-theorem witness at the violating instance. -/
theorem host_precheck_ignores_offsets_witness :
    pC8.H % 1 = 0 ∧
    gdpa_forward_tlx pC8 kernelAct 1 none (fun _ _ => 0) =
      Except.ok (gdpaKernelOutput pC8 kernelAct 1 (fun _ _ => 0)) :=
  ⟨by decide,
    host_precheck_ignores_offsets pC8 kernelAct 1 none (fun _ _ => 0)
      (by decide)⟩

/-- Claim C10: the forward kernel receives `qk_scale` (line 275) but never
reads it, and the host's only use is the `None -> 1.0` default before
passing it on (lines 1358-1359, 1501); so both the kernel output and the
entry point's result are independent of `qk_scale`. -/
theorem forward_independent_of_qk_scale (p : FwdParams) (act : ℚ → ℚ)
    (kvheads : ℕ) (init : ℕ → ℕ → ℚ) (s s' : ℚ) (o o' : Option ℚ) :
    gdpaKernelOutput p act s init = gdpaKernelOutput p act s' init ∧
    gdpa_forward_tlx p act kvheads o init =
      gdpa_forward_tlx p act kvheads o' init :=
  ⟨rfl, rfl⟩

end GdpaTlx
